import Mathlib

/-!
# The in-process publish/subscribe bus of `internal/subpub/subpub.go`

A shallow embedding of the bus.  Every operation that the Go code runs under
`sp.mu` is one atomic function on the state.  Channels are references in Go, so
they are natural-number identities into a small heap: `chans` holds the buffered
contents of each data channel `ch`, `doneChs` records which `doneCh` channels
have been closed.  The goroutine started by `Subscribe` is a `worker` record;
one pass through its `select` is `workerStep`, with the branch taken given
explicitly (Go picks among the ready branches at random), and the handler call
`cb(msg)` that follows a receive is a step of its own, `workerCall`, because no
lock is held between the two.  A handler call is observed through the log
`handled`.
-/

namespace SubPub

variable {μ : Type}

/-- The errors the bus can return: `ErrClosed` of the package and the two
values of `ctx.Err()`. -/
inductive Error where
  | ErrClosed
  | Canceled
  | DeadlineExceeded
  deriving DecidableEq

/-- A callback that processes a delivered message (`type MessageHandler`). -/
abbrev MessageHandler (μ : Type) := μ → Unit

/-- The part of `context.Context` that `Close` reads: `ctx.Err()`, which is
non-nil exactly when `ctx.Done()` is closed. -/
structure Context where
  err : Option Error
  deriving DecidableEq

/-- The registry entry `type subscriber struct`: the identities of its two
channels. -/
structure subscriber where
  ch : Nat
  doneCh : Nat
  deriving DecidableEq

/-- The handle `type subscription struct` (the `sp` pointer is the one bus of
the model). -/
structure subscription where
  subject : String
  ch : Nat
  doneCh : Nat
  deriving DecidableEq

/-- The goroutine started by `Subscribe`: the variables its closure captures. -/
structure worker (μ : Type) where
  ch : Nat
  doneCh : Nat
  cb : MessageHandler μ

/-- Capacity of every data channel: `make(chan interface{}, 100)`. -/
def chanCap : Nat := 100

/-- The bus `type subPub struct` together with the heap of channels it created,
its running goroutines and what the callers have seen.

* `subscribers`, `closed`, `closeCh`, `wg` are the Go fields (`closeCh` is
  `true` once `close(sp.closeCh)` has run, `wg` is the WaitGroup counter);
* `chans`, `doneChs`, `nextCh` are the channel heap and its allocator;
* `workers` are the goroutines that have not returned yet;
* `inflight c` is the local variable `msg` of the worker reading channel `c`
  from its receive (line 98) until its handler call (line 102) is made: the
  handler invocation that is pending or running;
* `handled c` lists the messages passed to the handler of the worker reading
  channel `c`, in call order;
* `handles` are the subscriptions returned to callers so far. -/
structure subPub (μ : Type) where
  subscribers : String → Option (List subscriber)
  closed : Bool
  closeCh : Bool
  wg : Nat
  chans : Nat → List μ
  doneChs : Nat → Bool
  nextCh : Nat
  workers : List (worker μ)
  inflight : Nat → Option μ
  handled : Nat → List μ
  handles : List subscription

/-- The constructor `NewSubPub`: empty registry, open bus. -/
def NewSubPub : subPub μ where
  subscribers := fun _ => none
  closed := false
  closeCh := false
  wg := 0
  chans := fun _ => []
  doneChs := fun _ => false
  nextCh := 0
  workers := []
  inflight := fun _ => none
  handled := fun _ => []
  handles := []

/-- Go map indexing `sp.subscribers[subject]`: the nil slice for a missing key. -/
def subPub.lookup (sp : subPub μ) (subject : String) : List subscriber :=
  (sp.subscribers subject).getD []

/-- The method `Subscribe` (lines 65-112).  The fresh channels get the identity
`sp.nextCh`. -/
def Subscribe (sp : subPub μ) (subject : String) (cb : MessageHandler μ) :
    subPub μ × Option subscription × Option Error :=
  if sp.closed then (sp, none, some Error.ErrClosed)
  else
    let ch := sp.nextCh
    let doneCh := sp.nextCh
    let sub : subscriber := { ch := ch, doneCh := doneCh }
    let s : subscription := { subject := subject, ch := ch, doneCh := doneCh }
    ({ sp with
        chans := Function.update sp.chans ch []
        doneChs := Function.update sp.doneChs doneCh false
        nextCh := sp.nextCh + 1
        subscribers := Function.update sp.subscribers subject (some (sp.lookup subject ++ [sub]))
        wg := sp.wg + 1
        workers := sp.workers ++ [{ ch := ch, doneCh := doneCh, cb := cb }]
        inflight := Function.update sp.inflight ch none
        handles := sp.handles ++ [s] },
      some s, none)

/-- The loop of `Unsubscribe` (lines 119-126): index of the first entry whose
`ch` is `c`. -/
def findCh (c : Nat) : List subscriber → Option Nat
  | [] => none
  | sub :: rest => if sub.ch = c then some 0 else (findCh c rest).map (· + 1)

/-- Lines 129-131 of `Unsubscribe`: drop the subject when no entry is left. -/
def dropIfEmpty (sp : subPub μ) (subject : String) : subPub μ :=
  if (sp.lookup subject).length = 0 then
    { sp with subscribers := Function.update sp.subscribers subject none }
  else sp

/-- The method `Unsubscribe` (lines 114-132).  The Boolean is `true` when
`close(s.doneCh)` panics because the channel is closed already; the panic
leaves line 122 done and lines 129-131 not run. -/
def Unsubscribe (sp : subPub μ) (s : subscription) : subPub μ × Bool :=
  let subs := sp.lookup s.subject
  match findCh s.ch subs with
  | some i =>
    let sp1 := { sp with
      subscribers := Function.update sp.subscribers s.subject
        (some (subs.take i ++ subs.drop (i + 1))) }
    if sp1.doneChs s.doneCh then (sp1, true)
    else
      (dropIfEmpty { sp1 with doneChs := Function.update sp1.doneChs s.doneCh true } s.subject,
        false)
  | none => (dropIfEmpty sp s.subject, false)

/-- The non-blocking send `select { case sub.ch <- msg: default: }` seen from
the queue: enqueue at the tail when there is room, drop otherwise. -/
def offer (q : List μ) (msg : μ) : List μ :=
  if q.length < chanCap then q ++ [msg] else q

/-- The non-blocking send on the channel heap. -/
def send (chans : Nat → List μ) (c : Nat) (msg : μ) : Nat → List μ :=
  Function.update chans c (offer (chans c) msg)

/-- The method `Publish` (lines 134-159). -/
def Publish (sp : subPub μ) (subject : String) (msg : μ) : subPub μ × Option Error :=
  if sp.closed then (sp, some Error.ErrClosed)
  else
    match sp.subscribers subject with
    | none => (sp, none)
    | some subs =>
      ({ sp with chans := subs.foldl (fun chans sub => send chans sub.ch msg) sp.chans }, none)

/-- How far `Close` got: it returned a value, or it reached the wait of lines
171-183. -/
inductive CloseOutcome where
  | returned (err : Option Error)
  | waiting
  deriving DecidableEq

/-- The locked part of `Close` (lines 161-169). -/
def Close (sp : subPub μ) (_ctx : Context) : subPub μ × CloseOutcome :=
  if sp.closed then (sp, CloseOutcome.returned none)
  else ({ sp with closed := true, closeCh := true }, CloseOutcome.waiting)

/-- The branches of the `select` in the worker loop (lines 97-107). -/
inductive SelectCase where
  | recv
  | done
  | closed
  deriving DecidableEq

/-- The worker returns: `defer sp.wg.Done()`. -/
def workerExit (sp : subPub μ) (w : Nat) : subPub μ :=
  { sp with workers := sp.workers.filter (fun k => k.ch != w), wg := sp.wg - 1 }

/-- One pass through the `select` of the worker loop (lines 96-107) of the
worker reading channel `w`, taking branch `c`.  The receive branch takes the
head of the queue into the local `msg`; the handler is called later, by
`workerCall`.  A worker that holds a message is not at its `select`; then, as
for a branch that is not ready or a worker that has returned, the state stays
as it is.  The data channel is never closed, so `ok` is always true. -/
def workerStep (sp : subPub μ) (w : Nat) (c : SelectCase) : subPub μ :=
  match sp.workers.find? (fun k => k.ch == w) with
  | none => sp
  | some k =>
    match sp.inflight k.ch with
    | some _ => sp
    | none =>
      match c with
      | SelectCase.recv =>
        match sp.chans k.ch with
        | [] => sp
        | msg :: rest =>
          { sp with
            chans := Function.update sp.chans k.ch rest
            inflight := Function.update sp.inflight k.ch (some msg) }
      | SelectCase.done => if sp.doneChs k.doneCh then workerExit sp w else sp
      | SelectCase.closed => if sp.closeCh then workerExit sp w else sp

/-- The handler call `cb(msg)` of line 102 by the worker reading channel `w`,
with the message it received; afterwards the worker is back at its `select`. -/
def workerCall (sp : subPub μ) (w : Nat) : subPub μ :=
  match sp.workers.find? (fun k => k.ch == w) with
  | none => sp
  | some k =>
    match sp.inflight k.ch with
    | none => sp
    | some msg =>
      let _ := k.cb msg
      { sp with
        inflight := Function.update sp.inflight k.ch none
        handled := Function.update sp.handled k.ch (sp.handled k.ch ++ [msg]) }

/-- What can happen to the bus: a call of one of its methods, or a step of one
of its workers. -/
inductive Action (μ : Type) where
  | subscribe (subject : String) (cb : MessageHandler μ)
  | publish (subject : String) (msg : μ)
  | unsubscribe (s : subscription)
  | close (ctx : Context)
  | work (w : Nat) (c : SelectCase)
  | call (w : Nat)

/-- The state after one action.  Callers can only cancel subscriptions that
`Subscribe` gave them. -/
def step (sp : subPub μ) : Action μ → subPub μ
  | Action.subscribe subject cb => (Subscribe sp subject cb).1
  | Action.publish subject msg => (Publish sp subject msg).1
  | Action.unsubscribe s => if s ∈ sp.handles then (Unsubscribe sp s).1 else sp
  | Action.close ctx => (Close sp ctx).1
  | Action.work w c => workerStep sp w c
  | Action.call w => workerCall sp w

/-- The state after a sequence of actions. -/
def run (sp : subPub μ) (t : List (Action μ)) : subPub μ :=
  t.foldl step sp

/-- The states the bus can be in: those that some sequence of actions reaches
from `NewSubPub`. -/
def Reachable (sp : subPub μ) : Prop :=
  ∃ t : List (Action μ), sp = run NewSubPub t

/-- The facts about the registry, the handles and the channel heap that hold in
every state the bus can be in. -/
structure Inv (sp : subPub μ) : Prop where
  ids : ∀ h ∈ sp.handles, h.ch < sp.nextCh ∧ h.doneCh = h.ch
  func : ∀ h ∈ sp.handles, ∀ k ∈ sp.handles, h.ch = k.ch → h = k
  reg : ∀ s l, sp.subscribers s = some l →
    l ≠ [] ∧ (l.map subscriber.ch).Nodup ∧
      ∀ e ∈ l, (⟨s, e.ch, e.doneCh⟩ : subscription) ∈ sp.handles ∧ sp.doneChs e.doneCh = false

/-- The branches of the `select` that ends `Close` (lines 178-183). -/
inductive CloseCase where
  | done
  | ctxDone
  deriving DecidableEq

/-- The end of `Close` (lines 171-183) taking the given branch: `done` is closed
once `sp.wg.Wait()` has returned, that is when the counter is zero, and
`ctx.Done()` is closed when `ctx.Err()` is non-nil.  `none` means that the
branch is not ready. -/
def CloseWait (sp : subPub μ) (ctx : Context) : CloseCase → Option (Option Error)
  | CloseCase.done => if sp.wg = 0 then some none else none
  | CloseCase.ctxDone =>
    match ctx.err with
    | some e => some (some e)
    | none => none

/-- The messages that the `Publish` calls among the actions give for `subject`,
in call order. -/
def published (subject : String) : List (Action μ) → List μ
  | [] => []
  | Action.publish s msg :: t =>
    if s = subject then msg :: published subject t else published subject t
  | Action.subscribe _ _ :: t => published subject t
  | Action.unsubscribe _ :: t => published subject t
  | Action.close _ :: t => published subject t
  | Action.work _ _ :: t => published subject t
  | Action.call _ :: t => published subject t

/-- The action does not overflow the queue `c` of a subscriber of `subject`: a
`Publish` to `subject` finds the bus open and fewer than 100 messages in `c`. -/
def NoOverflow (subject : String) (c : Nat) (sp : subPub μ) : Action μ → Prop
  | Action.publish s _ => s = subject → sp.closed = false ∧ (sp.chans c).length < chanCap
  | _ => True

/-- Along the actions `t` from `sp`, an entry with queue `c` is registered under
`subject` before every action, and no action overflows `c`. -/
def Steady (subject : String) (c : Nat) : subPub μ → List (Action μ) → Prop
  | _, [] => True
  | sp, a :: t =>
    (∃ e ∈ sp.lookup subject, e.ch = c) ∧ NoOverflow subject c sp a ∧
      Steady subject c (step sp a) t

/-- The channel `c` has been created and no entry of the registry owns it. -/
def Gone (c : Nat) (sp : subPub μ) : Prop :=
  c < sp.nextCh ∧ ∀ t, ∀ e ∈ sp.lookup t, e.ch ≠ c

/-- The facts about the goroutines that hold in every state the bus can be in:
the WaitGroup counts the workers that have not returned, they read distinct
channels that have been created, and only such a worker holds a message. -/
structure WInv (sp : subPub μ) : Prop where
  count : sp.wg = sp.workers.length
  distinct : (sp.workers.map worker.ch).Nodup
  created : ∀ k ∈ sp.workers, k.ch < sp.nextCh
  busy : ∀ c m, sp.inflight c = some m → ∃ k ∈ sp.workers, k.ch = c

/-- The action is a step of a worker: a pass through its `select` or a handler
call. -/
def Action.isWorker : Action μ → Bool
  | Action.work _ _ => true
  | Action.call _ => true
  | _ => false

/-! ## The non-blocking send over a list of entries -/

theorem foldl_send_congr (msg : μ) (subs : List subscriber) (c : Nat) :
    ∀ chans₁ chans₂ : Nat → List μ, chans₁ c = chans₂ c →
      subs.foldl (fun chans sub => send chans sub.ch msg) chans₁ c =
        subs.foldl (fun chans sub => send chans sub.ch msg) chans₂ c := by
  induction subs with
  | nil => intro chans₁ chans₂ h; simpa using h
  | cons e rest ih =>
    intro chans₁ chans₂ h
    simp only [List.foldl_cons]
    apply ih
    by_cases hc : c = e.ch
    · subst hc; simp [send, h]
    · simp [send, Function.update_noteq hc, h]

theorem foldl_send_of_not_mem (msg : μ) (subs : List subscriber) (c : Nat) :
    ∀ chans : Nat → List μ, (∀ e ∈ subs, e.ch ≠ c) →
      subs.foldl (fun chans sub => send chans sub.ch msg) chans c = chans c := by
  induction subs with
  | nil => intro chans _; rfl
  | cons e rest ih =>
    intro chans h
    simp only [List.foldl_cons]
    rw [ih _ (fun x hx => h x (List.mem_cons_of_mem _ hx))]
    have hc : c ≠ e.ch := fun hce => h e (List.mem_cons_self _ _) hce.symm
    simp [send, Function.update_noteq hc]

theorem foldl_send_of_mem (msg : μ) (subs : List subscriber) :
    ∀ chans : Nat → List μ, (subs.map subscriber.ch).Nodup → ∀ e ∈ subs,
      subs.foldl (fun chans sub => send chans sub.ch msg) chans e.ch =
        offer (chans e.ch) msg := by
  induction subs with
  | nil => intro chans _ e he; cases he
  | cons x rest ih =>
    intro chans hn e he
    simp only [List.map_cons, List.nodup_cons, List.mem_map, not_exists, not_and] at hn
    simp only [List.foldl_cons]
    rcases List.mem_cons.1 he with rfl | hr
    · rw [foldl_send_of_not_mem msg rest e.ch _ (fun y hy => hn.1 y hy)]
      simp [send]
    · rw [ih _ hn.2 e hr]
      have hc : e.ch ≠ x.ch := fun hce => hn.1 e hr hce
      simp [send, Function.update_noteq hc]

/-! ## The search loop of `Unsubscribe` -/

theorem findCh_eq_none (c : Nat) (l : List subscriber) :
    findCh c l = none ↔ ∀ e ∈ l, e.ch ≠ c := by
  induction l with
  | nil => simp [findCh]
  | cons x rest ih =>
    by_cases hx : x.ch = c
    · simp [findCh, hx]
    · simp [findCh, hx, ih]

theorem findCh_eq_some (c : Nat) (l : List subscriber) :
    ∀ i, findCh c l = some i →
      ∃ pre e post, l = pre ++ e :: post ∧ e.ch = c ∧ (∀ x ∈ pre, x.ch ≠ c) ∧
        l.take i ++ l.drop (i + 1) = pre ++ post := by
  induction l with
  | nil => intro i h; simp [findCh] at h
  | cons x rest ih =>
    intro i h
    by_cases hx : x.ch = c
    · simp only [findCh, hx, if_true, Option.some.injEq] at h
      subst h
      exact ⟨[], x, rest, rfl, hx, by simp, by simp⟩
    · simp only [findCh, hx, if_false, Option.map_eq_some'] at h
      obtain ⟨j, hj, rfl⟩ := h
      obtain ⟨pre, e, post, hl, he, hpre, htd⟩ := ih j hj
      refine ⟨x :: pre, e, post, by simp [hl], he, ?_, ?_⟩
      · intro y hy
        rcases List.mem_cons.1 hy with rfl | hy
        · exact hx
        · exact hpre y hy
      · simpa using htd

theorem findCh_append (c : Nat) (e : subscriber) (post : List subscriber) (he : e.ch = c) :
    ∀ pre : List subscriber, (∀ x ∈ pre, x.ch ≠ c) →
      findCh c (pre ++ e :: post) = some pre.length := by
  intro pre
  induction pre with
  | nil => intro _; simp [findCh, he]
  | cons x rest ih =>
    intro h
    have hx : x.ch ≠ c := h x (List.mem_cons_self _ _)
    simp [findCh, hx, ih (fun y hy => h y (List.mem_cons_of_mem _ hy))]

/-! ## `Unsubscribe` case by case -/

theorem lookup_eq_of_some (sp : subPub μ) (s : String) (l : List subscriber)
    (h : sp.subscribers s = some l) : sp.lookup s = l := by
  simp [subPub.lookup, h]

theorem dropIfEmpty_of_ne (sp : subPub μ) (s : String) (h : sp.lookup s ≠ []) :
    dropIfEmpty sp s = sp := by
  simp [dropIfEmpty, h]

theorem dropIfEmpty_of_none (sp : subPub μ) (s : String) (h : sp.subscribers s = none) :
    dropIfEmpty sp s = sp := by
  unfold dropIfEmpty
  split
  · have : Function.update sp.subscribers s none = sp.subscribers := by
      rw [← h]; exact Function.update_eq_self s sp.subscribers
    rw [this]
  · rfl

theorem Unsubscribe_of_split (sp : subPub μ) (s : subscription) (pre post : List subscriber)
    (e : subscriber) (hl : sp.lookup s.subject = pre ++ e :: post) (he : e.ch = s.ch)
    (hpre : ∀ x ∈ pre, x.ch ≠ s.ch) :
    Unsubscribe sp s =
      if sp.doneChs s.doneCh then
        ({ sp with
            subscribers := Function.update sp.subscribers s.subject (some (pre ++ post)) }, true)
      else
        (dropIfEmpty { sp with
            subscribers := Function.update sp.subscribers s.subject (some (pre ++ post))
            doneChs := Function.update sp.doneChs s.doneCh true } s.subject, false) := by
  unfold Unsubscribe
  simp only [hl, findCh_append s.ch e post he pre hpre]
  have htd : List.take pre.length (pre ++ e :: post) ++
      List.drop (pre.length + 1) (pre ++ e :: post) = pre ++ post := by
    simp
  rw [htd]

theorem Unsubscribe_of_not_mem (sp : subPub μ) (s : subscription)
    (h : ∀ e ∈ sp.lookup s.subject, e.ch ≠ s.ch) :
    Unsubscribe sp s = (dropIfEmpty sp s.subject, false) := by
  unfold Unsubscribe
  simp only [(findCh_eq_none s.ch (sp.lookup s.subject)).2 h]

/-! ## The invariant holds in every reachable state -/

theorem Subscribe_of_open (sp : subPub μ) (subject : String) (cb : MessageHandler μ)
    (h : sp.closed = false) :
    Subscribe sp subject cb =
      ({ sp with
          chans := Function.update sp.chans sp.nextCh []
          doneChs := Function.update sp.doneChs sp.nextCh false
          nextCh := sp.nextCh + 1
          subscribers := Function.update sp.subscribers subject
            (some (sp.lookup subject ++ [{ ch := sp.nextCh, doneCh := sp.nextCh }]))
          wg := sp.wg + 1
          workers := sp.workers ++ [{ ch := sp.nextCh, doneCh := sp.nextCh, cb := cb }]
          inflight := Function.update sp.inflight sp.nextCh none
          handles := sp.handles ++ [{ subject := subject, ch := sp.nextCh, doneCh := sp.nextCh }] },
        some { subject := subject, ch := sp.nextCh, doneCh := sp.nextCh }, none) := by
  simp [Subscribe, h]

theorem Inv.entry_of_handle {sp : subPub μ} (hI : Inv sp) {s : subscription}
    (hs : s ∈ sp.handles) {t : String} {l : List subscriber} (hl : sp.subscribers t = some l)
    {e : subscriber} (he : e ∈ l) (hc : e.ch = s.ch) :
    t = s.subject ∧ e.doneCh = s.doneCh := by
  have hk := ((hI.reg t l hl).2.2 e he).1
  have := hI.func _ hk s hs hc
  subst this
  exact ⟨rfl, rfl⟩

theorem Inv.lookup_nodup {sp : subPub μ} (hI : Inv sp) (s : String) :
    ((sp.lookup s).map subscriber.ch).Nodup := by
  unfold subPub.lookup
  cases h : sp.subscribers s with
  | none => simp
  | some l => simpa using (hI.reg s l h).2.1

theorem Inv.none_of_lookup_nil {sp : subPub μ} (hI : Inv sp) (s : String)
    (h : sp.lookup s = []) : sp.subscribers s = none := by
  cases hs : sp.subscribers s with
  | none => rfl
  | some l =>
    have := lookup_eq_of_some sp s l hs
    exact absurd (this.symm.trans h) (hI.reg s l hs).1

theorem inv_NewSubPub : Inv (NewSubPub : subPub μ) where
  ids := by intro h hh; simp [NewSubPub] at hh
  func := by intro h hh; simp [NewSubPub] at hh
  reg := by intro s l h; simp [NewSubPub] at h

theorem inv_Subscribe (sp : subPub μ) (hI : Inv sp) (subject : String) (cb : MessageHandler μ) :
    Inv (Subscribe sp subject cb).1 := by
  cases hc : sp.closed with
  | true => simpa [Subscribe, hc] using hI
  | false =>
    rw [Subscribe_of_open sp subject cb hc]
    have hold : ∀ t l, sp.subscribers t = some l → ∀ e ∈ l,
        e.ch < sp.nextCh ∧ e.doneCh = e.ch := by
      intro t l hl e he
      exact hI.ids _ ((hI.reg t l hl).2.2 e he).1
    refine ⟨?_, ?_, ?_⟩
    · intro h hh
      rcases List.mem_append.1 hh with hh | hh
      · exact ⟨Nat.lt_succ_of_lt (hI.ids h hh).1, (hI.ids h hh).2⟩
      · simp only [List.mem_singleton] at hh
        subst hh
        exact ⟨Nat.lt_succ_self _, rfl⟩
    · intro h hh k hk hhk
      rcases List.mem_append.1 hh with hh | hh <;> rcases List.mem_append.1 hk with hk | hk
      · exact hI.func h hh k hk hhk
      · simp only [List.mem_singleton] at hk
        subst hk
        exact absurd hhk (Nat.ne_of_lt (hI.ids h hh).1)
      · simp only [List.mem_singleton] at hh
        subst hh
        exact absurd hhk.symm (Nat.ne_of_lt (hI.ids k hk).1)
      · simp only [List.mem_singleton] at hh hk
        rw [hh, hk]
    · intro t l hl
      by_cases ht : t = subject
      · subst ht
        simp only [Function.update_same, Option.some.injEq] at hl
        subst hl
        have hmem : ∀ e ∈ sp.lookup t, (⟨t, e.ch, e.doneCh⟩ : subscription) ∈ sp.handles ∧
            sp.doneChs e.doneCh = false ∧ e.ch < sp.nextCh ∧ e.doneCh = e.ch := by
          intro e he
          cases hs : sp.subscribers t with
          | none => simp [subPub.lookup, hs] at he
          | some l0 =>
            rw [lookup_eq_of_some sp t l0 hs] at he
            exact ⟨((hI.reg t l0 hs).2.2 e he).1, ((hI.reg t l0 hs).2.2 e he).2,
              hold t l0 hs e he⟩
        refine ⟨by simp, ?_, ?_⟩
        · rw [List.map_append, List.nodup_append]
          refine ⟨hI.lookup_nodup t, by simp, ?_⟩
          intro a ha hb
          simp only [List.map_cons, List.map_nil, List.mem_singleton] at hb
          obtain ⟨e, he, rfl⟩ := List.mem_map.1 ha
          exact Nat.ne_of_lt (hmem e he).2.2.1 hb
        · intro e he
          rcases List.mem_append.1 he with he | he
          · obtain ⟨h1, h2, h3, h4⟩ := hmem e he
            refine ⟨List.mem_append_left _ h1, ?_⟩
            have : e.doneCh ≠ sp.nextCh := by rw [h4]; exact Nat.ne_of_lt h3
            simpa [Function.update_noteq this] using h2
          · simp only [List.mem_singleton] at he
            subst he
            exact ⟨List.mem_append_right _ (by simp), by simp⟩
      · simp only [Function.update_noteq ht] at hl
        obtain ⟨h1, h2, h3⟩ := hI.reg t l hl
        refine ⟨h1, h2, ?_⟩
        intro e he
        refine ⟨List.mem_append_left _ (h3 e he).1, ?_⟩
        have h4 := hold t l hl e he
        have : e.doneCh ≠ sp.nextCh := by rw [h4.2]; exact Nat.ne_of_lt h4.1
        simpa [Function.update_noteq this] using (h3 e he).2

theorem inv_Publish (sp : subPub μ) (hI : Inv sp) (subject : String) (msg : μ) :
    Inv (Publish sp subject msg).1 := by
  unfold Publish
  split
  · exact hI
  · split
    · exact hI
    · exact ⟨hI.ids, hI.func, hI.reg⟩

theorem inv_Close (sp : subPub μ) (hI : Inv sp) (ctx : Context) : Inv (Close sp ctx).1 := by
  unfold Close
  split
  · exact hI
  · exact ⟨hI.ids, hI.func, hI.reg⟩

theorem workerStep_fields (sp : subPub μ) (w : Nat) (k : SelectCase) :
    (workerStep sp w k).subscribers = sp.subscribers ∧
    (workerStep sp w k).nextCh = sp.nextCh ∧ (workerStep sp w k).closed = sp.closed ∧
    (workerStep sp w k).handles = sp.handles ∧ (workerStep sp w k).doneChs = sp.doneChs ∧
    (workerStep sp w k).handled = sp.handled := by
  unfold workerStep
  split
  · exact ⟨rfl, rfl, rfl, rfl, rfl, rfl⟩
  · split
    · exact ⟨rfl, rfl, rfl, rfl, rfl, rfl⟩
    · cases k with
      | recv => simp only; split <;> exact ⟨rfl, rfl, rfl, rfl, rfl, rfl⟩
      | done => simp only; split <;> exact ⟨rfl, rfl, rfl, rfl, rfl, rfl⟩
      | closed => simp only; split <;> exact ⟨rfl, rfl, rfl, rfl, rfl, rfl⟩

theorem workerCall_fields (sp : subPub μ) (w : Nat) :
    (workerCall sp w).subscribers = sp.subscribers ∧
    (workerCall sp w).nextCh = sp.nextCh ∧ (workerCall sp w).closed = sp.closed ∧
    (workerCall sp w).handles = sp.handles ∧ (workerCall sp w).doneChs = sp.doneChs ∧
    (workerCall sp w).chans = sp.chans ∧ (workerCall sp w).workers = sp.workers ∧
    (workerCall sp w).wg = sp.wg := by
  unfold workerCall
  split
  · exact ⟨rfl, rfl, rfl, rfl, rfl, rfl, rfl, rfl⟩
  · split <;> exact ⟨rfl, rfl, rfl, rfl, rfl, rfl, rfl, rfl⟩

theorem inv_workerStep (sp : subPub μ) (hI : Inv sp) (w : Nat) (c : SelectCase) :
    Inv (workerStep sp w c) := by
  obtain ⟨h1, h2, -, h4, h5, -⟩ := workerStep_fields sp w c
  exact ⟨by rw [h4, h2]; exact hI.ids, by rw [h4]; exact hI.func,
    by rw [h1, h4, h5]; exact hI.reg⟩

theorem inv_workerCall (sp : subPub μ) (hI : Inv sp) (w : Nat) : Inv (workerCall sp w) := by
  obtain ⟨h1, h2, -, h4, h5, -⟩ := workerCall_fields sp w
  exact ⟨by rw [h4, h2]; exact hI.ids, by rw [h4]; exact hI.func,
    by rw [h1, h4, h5]; exact hI.reg⟩

theorem mem_split_of_ch (c : Nat) (l : List subscriber) (h : ¬ ∀ e ∈ l, e.ch ≠ c) :
    ∃ pre e post, l = pre ++ e :: post ∧ e.ch = c ∧ ∀ x ∈ pre, x.ch ≠ c := by
  cases hf : findCh c l with
  | none => exact absurd ((findCh_eq_none c l).1 hf) h
  | some i =>
    obtain ⟨pre, e, post, h1, h2, h3, _⟩ := findCh_eq_some c l i hf
    exact ⟨pre, e, post, h1, h2, h3⟩

theorem Unsubscribe_absent (sp : subPub μ) (hI : Inv sp) (s : subscription)
    (h : ∀ e ∈ sp.lookup s.subject, e.ch ≠ s.ch) : Unsubscribe sp s = (sp, false) := by
  rw [Unsubscribe_of_not_mem sp s h]
  by_cases hl : sp.lookup s.subject = []
  · rw [dropIfEmpty_of_none sp s.subject (hI.none_of_lookup_nil s.subject hl)]
  · rw [dropIfEmpty_of_ne sp s.subject hl]

theorem Unsubscribe_present (sp : subPub μ) (hI : Inv sp) (s : subscription)
    (hs : s ∈ sp.handles) (pre post : List subscriber) (e : subscriber)
    (hl : sp.lookup s.subject = pre ++ e :: post) (he : e.ch = s.ch) :
    Unsubscribe sp s =
      ({ sp with
          subscribers := Function.update sp.subscribers s.subject
            (if pre ++ post = [] then none else some (pre ++ post))
          doneChs := Function.update sp.doneChs s.doneCh true }, false) := by
  have hnd := hI.lookup_nodup s.subject
  rw [hl] at hnd
  have hpre : ∀ x ∈ pre, x.ch ≠ s.ch := by
    intro x hx hxc
    simp only [List.map_append, List.map_cons] at hnd
    exact (List.nodup_append.1 hnd).2.2 (List.mem_map_of_mem subscriber.ch hx)
      (by rw [hxc, ← he]; exact List.mem_cons_self _ _)
  have hsome : sp.subscribers s.subject = some (pre ++ e :: post) := by
    cases hsub : sp.subscribers s.subject with
    | none => simp [subPub.lookup, hsub] at hl
    | some l0 => rw [← hl, lookup_eq_of_some sp s.subject l0 hsub]
  have hdone : sp.doneChs s.doneCh = false := by
    have hmem : e ∈ pre ++ e :: post := by simp
    have := hI.entry_of_handle hs hsome hmem he
    rw [← this.2]
    exact ((hI.reg _ _ hsome).2.2 e hmem).2
  rw [Unsubscribe_of_split sp s pre post e hl he hpre]
  simp only [hdone, Bool.false_eq_true, if_false]
  by_cases hnil : pre ++ post = []
  · simp [dropIfEmpty, subPub.lookup, hnil]
  · rw [if_neg hnil, dropIfEmpty_of_ne]
    simpa [subPub.lookup] using hnil

theorem inv_Unsubscribe (sp : subPub μ) (hI : Inv sp) (s : subscription)
    (hs : s ∈ sp.handles) : Inv (Unsubscribe sp s).1 := by
  by_cases h : ∀ e ∈ sp.lookup s.subject, e.ch ≠ s.ch
  · rw [Unsubscribe_absent sp hI s h]; exact hI
  · obtain ⟨pre, e, post, hl, he, -⟩ := mem_split_of_ch s.ch _ h
    rw [Unsubscribe_present sp hI s hs pre post e hl he]
    have hnd := hI.lookup_nodup s.subject
    rw [hl] at hnd
    have hsome : sp.subscribers s.subject = some (pre ++ e :: post) := by
      cases hsub : sp.subscribers s.subject with
      | none => simp [subPub.lookup, hsub] at hl
      | some l0 => rw [← hl, lookup_eq_of_some sp s.subject l0 hsub]
    have hrest : ∀ x ∈ pre ++ post, x.ch ≠ s.ch := by
      intro x hx hxc
      simp only [List.map_append, List.map_cons] at hnd
      have h1 := (List.nodup_append.1 hnd).2.2
      have h2 := (List.nodup_cons.1 (List.nodup_append.1 hnd).2.1).1
      rcases List.mem_append.1 hx with hx | hx
      · exact h1 (List.mem_map_of_mem subscriber.ch hx)
          (by rw [hxc, ← he]; exact List.mem_cons_self _ _)
      · exact h2 (by rw [he, ← hxc]; exact List.mem_map_of_mem subscriber.ch hx)
    have hsub : ∀ x ∈ pre ++ post, x ∈ pre ++ e :: post := by
      intro x hx
      rcases List.mem_append.1 hx with hx | hx
      · exact List.mem_append_left _ hx
      · exact List.mem_append_right _ (List.mem_cons_of_mem _ hx)
    have hopen : ∀ t l, sp.subscribers t = some l → ∀ x ∈ l, x.ch ≠ s.ch →
        Function.update sp.doneChs s.doneCh true x.doneCh = false := by
      intro t l htl x hx hxc
      have h1 := (hI.reg t l htl).2.2 x hx
      have h2 := (hI.ids _ h1.1).2
      have h3 := (hI.ids s hs).2
      have : x.doneCh ≠ s.doneCh := by
        intro hd
        apply hxc
        simp only at h2
        rw [← h2, hd, h3]
      rw [Function.update_noteq this]
      exact h1.2
    refine ⟨hI.ids, hI.func, ?_⟩
    intro t l htl
    by_cases ht : t = s.subject
    · subst ht
      simp only [Function.update_same] at htl
      by_cases hnil : pre ++ post = []
      · simp [hnil] at htl
      · simp only [hnil, if_false, Option.some.injEq] at htl
        subst htl
        refine ⟨hnil, ?_, ?_⟩
        · simp only [List.map_append, List.map_cons] at hnd ⊢
          have h1 := List.nodup_append.1 hnd
          refine List.nodup_append.2 ⟨h1.1, (List.nodup_cons.1 h1.2.1).2, ?_⟩
          intro a ha hb
          exact h1.2.2 ha (List.mem_cons_of_mem _ hb)
        · intro x hx
          exact ⟨((hI.reg _ _ hsome).2.2 x (hsub x hx)).1,
            hopen _ _ hsome x (hsub x hx) (hrest x hx)⟩
    · simp only [Function.update_noteq ht] at htl
      obtain ⟨h1, h2, h3⟩ := hI.reg t l htl
      refine ⟨h1, h2, ?_⟩
      intro x hx
      refine ⟨(h3 x hx).1, hopen t l htl x hx ?_⟩
      intro hxc
      exact ht (hI.entry_of_handle hs htl hx hxc).1

theorem inv_step (sp : subPub μ) (hI : Inv sp) (a : Action μ) : Inv (step sp a) := by
  cases a with
  | subscribe subject cb => exact inv_Subscribe sp hI subject cb
  | publish subject msg => exact inv_Publish sp hI subject msg
  | unsubscribe s =>
    simp only [step]
    split
    · next hs => exact inv_Unsubscribe sp hI s hs
    · exact hI
  | close ctx => exact inv_Close sp hI ctx
  | work w c => exact inv_workerStep sp hI w c
  | call w => exact inv_workerCall sp hI w

theorem inv_run (t : List (Action μ)) : ∀ sp : subPub μ, Inv sp → Inv (run sp t) := by
  induction t with
  | nil => intro sp h; exact h
  | cons a rest ih => intro sp h; exact ih _ (inv_step sp h a)

theorem inv_of_reachable (sp : subPub μ) (h : Reachable sp) : Inv sp := by
  obtain ⟨t, rfl⟩ := h
  exact inv_run t _ inv_NewSubPub

/-! ## `Publish` -/

theorem Publish_of_open (sp : subPub μ) (s : String) (m : μ) (ho : sp.closed = false) :
    Publish sp s m =
      ({ sp with
          chans := (sp.lookup s).foldl (fun chans sub => send chans sub.ch m) sp.chans },
        none) := by
  unfold Publish subPub.lookup
  rw [if_neg (by simp [ho])]
  cases h : sp.subscribers s <;> rfl

/-- C1: on a bus that is open, in any state the bus can be in, `Publish s m`
returns no error; every entry registered under `s` gets `m` appended once at the
tail of its queue when the queue holds fewer than 100 messages and keeps its
queue as it was otherwise; the queues of the entries of every other subject, and
every channel that no entry under `s` owns, are unchanged; the registry and all
the rest of the state are unchanged; with no entry under `s` nothing changes. -/
theorem Publish_open_contract (sp : subPub μ) (hr : Reachable sp) (ho : sp.closed = false)
    (s : String) (m : μ) :
    (Publish sp s m).2 = none ∧
    (∀ e ∈ sp.lookup s, (Publish sp s m).1.chans e.ch =
      if (sp.chans e.ch).length < 100 then sp.chans e.ch ++ [m] else sp.chans e.ch) ∧
    (∀ t, t ≠ s → ∀ e ∈ sp.lookup t, (Publish sp s m).1.chans e.ch = sp.chans e.ch) ∧
    (∀ c, (∀ e ∈ sp.lookup s, e.ch ≠ c) → (Publish sp s m).1.chans c = sp.chans c) ∧
    (Publish sp s m).1.subscribers = sp.subscribers ∧
    (Publish sp s m).1 = { sp with chans := (Publish sp s m).1.chans } ∧
    (sp.lookup s = [] → (Publish sp s m).1 = sp) := by
  have hI := inv_of_reachable sp hr
  rw [Publish_of_open sp s m ho]
  refine ⟨rfl, ?_, ?_, ?_, rfl, rfl, ?_⟩
  · intro e he
    simp only
    rw [foldl_send_of_mem m _ _ (hI.lookup_nodup s) e he]
    rfl
  · intro t ht e he
    apply foldl_send_of_not_mem
    intro x hx hxe
    cases hs : sp.subscribers s with
    | none => simp [subPub.lookup, hs] at hx
    | some ls =>
      cases hts : sp.subscribers t with
      | none => simp [subPub.lookup, hts] at he
      | some lt =>
        rw [lookup_eq_of_some sp s ls hs] at hx
        rw [lookup_eq_of_some sp t lt hts] at he
        have hk := ((hI.reg t lt hts).2.2 e he).1
        exact ht (hI.entry_of_handle hk hs hx hxe).1.symm
  · intro c hc
    exact foldl_send_of_not_mem m _ c _ hc
  · intro hnil
    simp [hnil]

/-- C1, at a concrete state: one subscriber under `"s"`, then `Publish "s" "m"`. -/
theorem Publish_open_contract_witness :
    Reachable (run (NewSubPub : subPub String) [Action.subscribe "s" (fun _ => ())]) ∧
    (run (NewSubPub : subPub String) [Action.subscribe "s" (fun _ => ())]).closed = false ∧
    (Publish (run (NewSubPub : subPub String) [Action.subscribe "s" (fun _ => ())])
      "s" "m").2 = none :=
  ⟨⟨_, rfl⟩, rfl,
    (Publish_open_contract (run (NewSubPub : subPub String) [Action.subscribe "s" (fun _ => ())])
      ⟨_, rfl⟩ rfl "s" "m").1⟩

/-- C2: `Subscribe` and `Publish` return an error exactly when the closed flag
is set, the error is `ErrClosed`, and a failing call leaves the whole state as
it was and returns no handle. -/
theorem Subscribe_Publish_error_iff_closed (sp : subPub μ) (subject : String)
    (cb : MessageHandler μ) (msg : μ) :
    ((Subscribe sp subject cb).2.2 ≠ none ↔ sp.closed = true) ∧
    ((Publish sp subject msg).2 ≠ none ↔ sp.closed = true) ∧
    (sp.closed = true →
      (Subscribe sp subject cb).2.2 = some Error.ErrClosed ∧
      (Subscribe sp subject cb).2.1 = none ∧
      (Subscribe sp subject cb).1 = sp ∧
      (Publish sp subject msg).2 = some Error.ErrClosed ∧
      (Publish sp subject msg).1 = sp) := by
  cases hc : sp.closed with
  | true => simp [Subscribe, Publish, hc]
  | false =>
    rw [Subscribe_of_open sp subject cb hc, Publish_of_open sp subject msg hc]
    simp

/-- C2, at a concrete state: the bus after `Close`, with the empty subject. -/
theorem Subscribe_Publish_error_iff_closed_witness :
    (Close (NewSubPub : subPub String) ⟨none⟩).1.closed = true ∧
    (Subscribe (Close (NewSubPub : subPub String) ⟨none⟩).1 "" (fun _ => ())).2.2 =
      some Error.ErrClosed ∧
    (Publish (Close (NewSubPub : subPub String) ⟨none⟩).1 "" "m").2 = some Error.ErrClosed :=
  ⟨rfl,
    ((Subscribe_Publish_error_iff_closed (Close (NewSubPub : subPub String) ⟨none⟩).1 ""
      (fun _ => ()) "m").2.2 rfl).1,
    ((Subscribe_Publish_error_iff_closed (Close (NewSubPub : subPub String) ⟨none⟩).1 ""
      (fun _ => ()) "m").2.2 rfl).2.2.2.1⟩

/-! ## `Unsubscribe`, isolation, `Close` -/

/-- C3: when the queues under the handle's subject have pairwise distinct
identities and the entry `e` of the handle `h` is registered under `h.subject`,
`h.Unsubscribe()` leaves under that subject the previous sequence with `e` alone
removed (all other entries kept, in order), leaves every other subject, every
queue and every other termination signal as they were, and raises the
termination signal of `e`.  When that signal was not raised before, the call
does not panic and the subject is deleted exactly when no entry is left. -/
theorem Unsubscribe_removes_entry (sp : subPub μ) (h : subscription)
    (hd : ((sp.lookup h.subject).map subscriber.ch).Nodup)
    (he : (⟨h.ch, h.doneCh⟩ : subscriber) ∈ sp.lookup h.subject) :
    ∃ pre post : List subscriber,
      sp.lookup h.subject = pre ++ ⟨h.ch, h.doneCh⟩ :: post ∧
      (Unsubscribe sp h).1.lookup h.subject = pre ++ post ∧
      (⟨h.ch, h.doneCh⟩ : subscriber) ∉ pre ++ post ∧
      (∀ t, t ≠ h.subject → (Unsubscribe sp h).1.subscribers t = sp.subscribers t) ∧
      (Unsubscribe sp h).1.chans = sp.chans ∧
      (Unsubscribe sp h).1.doneChs h.doneCh = true ∧
      (∀ d, d ≠ h.doneCh → (Unsubscribe sp h).1.doneChs d = sp.doneChs d) ∧
      (sp.doneChs h.doneCh = false →
        (Unsubscribe sp h).2 = false ∧
        (Unsubscribe sp h).1.subscribers h.subject =
          if pre ++ post = [] then none else some (pre ++ post)) := by
  have hne : ¬ ∀ x ∈ sp.lookup h.subject, x.ch ≠ h.ch := fun hall => hall _ he rfl
  obtain ⟨pre, e, post, hl, hec, hpre⟩ := mem_split_of_ch h.ch _ hne
  have hee : e = ⟨h.ch, h.doneCh⟩ :=
    List.inj_on_of_nodup_map hd (by rw [hl]; simp) he hec
  subst hee
  have hnot : (⟨h.ch, h.doneCh⟩ : subscriber) ∉ pre ++ post := by
    rw [hl] at hd
    simp only [List.map_append, List.map_cons] at hd
    have h1 := List.nodup_append.1 hd
    intro hmem
    rcases List.mem_append.1 hmem with hm | hm
    · exact h1.2.2 (List.mem_map_of_mem subscriber.ch hm) (List.mem_cons_self _ _)
    · exact (List.nodup_cons.1 h1.2.1).1 (List.mem_map_of_mem subscriber.ch hm)
  refine ⟨pre, post, hl, ?_⟩
  rw [Unsubscribe_of_split sp h pre post _ hl rfl hpre]
  cases hdc : sp.doneChs h.doneCh with
  | true =>
    refine ⟨?_, hnot, ?_, rfl, ?_, ?_, ?_⟩
    · simp [subPub.lookup]
    · intro t ht
      simp [Function.update_noteq ht]
    · simpa using hdc
    · intro d _
      simp
    · intro hf; cases hf
  | false =>
    simp only [Bool.false_eq_true, if_false]
    by_cases hnil : pre ++ post = []
    · have hdrop : ∀ sp0 : subPub μ, sp0.lookup h.subject = [] →
          dropIfEmpty sp0 h.subject =
            { sp0 with subscribers := Function.update sp0.subscribers h.subject none } := by
        intro sp0 h0; simp [dropIfEmpty, h0]
      rw [hdrop _ (by simp [subPub.lookup, hnil])]
      refine ⟨?_, hnot, ?_, rfl, ?_, ?_, ?_⟩
      · simp [subPub.lookup, hnil]
      · intro t ht
        simp [Function.update_noteq ht]
      · simp
      · intro d hdne
        simp [Function.update_noteq hdne]
      · intro _
        simp [hnil]
    · rw [dropIfEmpty_of_ne _ _ (by simpa [subPub.lookup] using hnil)]
      refine ⟨?_, hnot, ?_, rfl, ?_, ?_, ?_⟩
      · simp [subPub.lookup]
      · intro t ht
        simp [Function.update_noteq ht]
      · simp
      · intro d hdne
        simp [Function.update_noteq hdne]
      · intro _
        simp [hnil]

/-- C3, at a concrete state: two subscribers under `"s"`, the first one cancels. -/
theorem Unsubscribe_removes_entry_witness :
    (((run (NewSubPub : subPub String)
        [Action.subscribe "s" (fun _ => ()), Action.subscribe "s" (fun _ => ())]).lookup
          "s").map subscriber.ch).Nodup ∧
    (⟨0, 0⟩ : subscriber) ∈ (run (NewSubPub : subPub String)
        [Action.subscribe "s" (fun _ => ()), Action.subscribe "s" (fun _ => ())]).lookup "s" ∧
    ∃ pre post : List subscriber,
      (Unsubscribe (run (NewSubPub : subPub String)
        [Action.subscribe "s" (fun _ => ()), Action.subscribe "s" (fun _ => ())])
          ⟨"s", 0, 0⟩).1.lookup "s" = pre ++ post :=
  ⟨by decide, by decide,
    (Unsubscribe_removes_entry (run (NewSubPub : subPub String)
        [Action.subscribe "s" (fun _ => ()), Action.subscribe "s" (fun _ => ())])
      ⟨"s", 0, 0⟩ (by decide) (by decide)).elim
      (fun pre hp => hp.elim (fun post hq => ⟨pre, post, hq.2.1⟩))⟩

/-- C6: two open states with the same registry and the same queue for the entry
`e` under `s`, whatever the other queues hold: `Publish s m` returns the same
result in both and leaves the queue of `e` the same in both.  When the queue
identities under `s` are distinct, that queue is the old one with `m` offered to
it, so it gets `m` whenever it holds fewer than 100 messages. -/
theorem Publish_isolation (sp₁ sp₂ : subPub μ) (ho₁ : sp₁.closed = false)
    (ho₂ : sp₂.closed = false) (hreg : sp₁.subscribers = sp₂.subscribers) (s : String)
    (e : subscriber) (he : e ∈ sp₁.lookup s) (hq : sp₁.chans e.ch = sp₂.chans e.ch) (m : μ) :
    (Publish sp₁ s m).1.chans e.ch = (Publish sp₂ s m).1.chans e.ch ∧
    (Publish sp₁ s m).2 = (Publish sp₂ s m).2 ∧
    (((sp₁.lookup s).map subscriber.ch).Nodup →
      (Publish sp₁ s m).1.chans e.ch =
        if (sp₁.chans e.ch).length < 100 then sp₁.chans e.ch ++ [m] else sp₁.chans e.ch) := by
  have hlk : sp₂.lookup s = sp₁.lookup s := by simp [subPub.lookup, hreg]
  rw [Publish_of_open sp₁ s m ho₁, Publish_of_open sp₂ s m ho₂, hlk]
  refine ⟨foldl_send_congr m _ e.ch _ _ hq, rfl, ?_⟩
  intro hn
  simp only
  rw [foldl_send_of_mem m _ _ hn e he]
  rfl


/-- C6, at concrete states: a slow and a fast subscriber under `"s"`; in the
second state the queue of the slow one is full. -/
theorem Publish_isolation_witness :
    (Publish (run (NewSubPub : subPub String)
        [Action.subscribe "s" (fun _ => ()), Action.subscribe "s" (fun _ => ())])
      "s" "m").1.chans 1 =
    (Publish { run (NewSubPub : subPub String)
        [Action.subscribe "s" (fun _ => ()), Action.subscribe "s" (fun _ => ())] with
        chans := Function.update (fun _ => []) 0 (List.replicate 100 "x") }
      "s" "m").1.chans 1 :=
  (Publish_isolation
    (run (NewSubPub : subPub String)
      [Action.subscribe "s" (fun _ => ()), Action.subscribe "s" (fun _ => ())])
    { run (NewSubPub : subPub String)
        [Action.subscribe "s" (fun _ => ()), Action.subscribe "s" (fun _ => ())] with
        chans := Function.update (fun _ => []) 0 (List.replicate 100 "x") }
    rfl rfl rfl "s" ⟨1, 1⟩ (by decide) (by decide) "m").1

/-- C7: `Close` on a bus whose closed flag is set returns nil at once, for any
context, without reaching the wait for the workers, and leaves the whole state
as it was. -/
theorem Close_idempotent (sp : subPub μ) (ctx : Context) (h : sp.closed = true) :
    Close sp ctx = (sp, CloseOutcome.returned none) := by
  simp [Close, h]

/-- C7, at a concrete state: a second `Close`, with a context past its deadline. -/
theorem Close_idempotent_witness :
    (Close (NewSubPub : subPub String) ⟨none⟩).1.closed = true ∧
    Close (Close (NewSubPub : subPub String) ⟨none⟩).1 ⟨some Error.DeadlineExceeded⟩ =
      ((Close (NewSubPub : subPub String) ⟨none⟩).1, CloseOutcome.returned none) :=
  ⟨rfl, Close_idempotent (Close (NewSubPub : subPub String) ⟨none⟩).1
    ⟨some Error.DeadlineExceeded⟩ rfl⟩

/-! ## What one action does to one queue -/

theorem mem_lookup (sp : subPub μ) (t : String) (e : subscriber) (h : e ∈ sp.lookup t) :
    ∃ l, sp.subscribers t = some l ∧ e ∈ l := by
  cases hs : sp.subscribers t with
  | none => simp [subPub.lookup, hs] at h
  | some l => exact ⟨l, rfl, by simpa [subPub.lookup, hs] using h⟩

theorem dropIfEmpty_lookup_subset (sp : subPub μ) (s t : String) (e : subscriber)
    (h : e ∈ (dropIfEmpty sp s).lookup t) : e ∈ sp.lookup t := by
  unfold dropIfEmpty at h
  split at h
  · by_cases hts : t = s
    · subst hts; simp [subPub.lookup] at h
    · simpa [subPub.lookup, Function.update_noteq hts] using h
  · exact h

theorem dropIfEmpty_fields (sp : subPub μ) (s : String) :
    (dropIfEmpty sp s).chans = sp.chans ∧ (dropIfEmpty sp s).handled = sp.handled ∧
    (dropIfEmpty sp s).nextCh = sp.nextCh ∧ (dropIfEmpty sp s).inflight = sp.inflight ∧
    (dropIfEmpty sp s).workers = sp.workers ∧ (dropIfEmpty sp s).wg = sp.wg := by
  unfold dropIfEmpty
  split <;> exact ⟨rfl, rfl, rfl, rfl, rfl, rfl⟩

theorem Unsubscribe_fields (sp : subPub μ) (s : subscription) :
    (Unsubscribe sp s).1.chans = sp.chans ∧ (Unsubscribe sp s).1.handled = sp.handled ∧
    (Unsubscribe sp s).1.nextCh = sp.nextCh ∧ (Unsubscribe sp s).1.inflight = sp.inflight ∧
    (Unsubscribe sp s).1.workers = sp.workers ∧ (Unsubscribe sp s).1.wg = sp.wg := by
  by_cases hab : ∀ x ∈ sp.lookup s.subject, x.ch ≠ s.ch
  · rw [Unsubscribe_of_not_mem sp s hab]
    exact dropIfEmpty_fields _ _
  · obtain ⟨pre, x, post, hl, hx, hpre⟩ := mem_split_of_ch s.ch _ hab
    rw [Unsubscribe_of_split sp s pre post x hl hx hpre]
    split
    · exact ⟨rfl, rfl, rfl, rfl, rfl, rfl⟩
    · exact dropIfEmpty_fields _ _

theorem Unsubscribe_lookup_subset (sp : subPub μ) (s : subscription) (t : String)
    (e : subscriber) (h : e ∈ (Unsubscribe sp s).1.lookup t) : e ∈ sp.lookup t := by
  by_cases hab : ∀ x ∈ sp.lookup s.subject, x.ch ≠ s.ch
  · rw [Unsubscribe_of_not_mem sp s hab] at h
    exact dropIfEmpty_lookup_subset sp _ t e h
  · obtain ⟨pre, x, post, hl, hx, hpre⟩ := mem_split_of_ch s.ch _ hab
    rw [Unsubscribe_of_split sp s pre post x hl hx hpre] at h
    have key : ∀ sp0 : subPub μ,
        sp0.subscribers = Function.update sp.subscribers s.subject (some (pre ++ post)) →
        e ∈ sp0.lookup t → e ∈ sp.lookup t := by
      intro sp0 h0 hm
      by_cases hts : t = s.subject
      · subst hts
        rw [hl]
        simp only [subPub.lookup, h0, Function.update_same, Option.getD_some] at hm
        rcases List.mem_append.1 hm with hm | hm
        · exact List.mem_append_left _ hm
        · exact List.mem_append_right _ (List.mem_cons_of_mem _ hm)
      · simpa [subPub.lookup, h0, Function.update_noteq hts] using hm
    split at h
    · exact key _ rfl h
    · exact key _ rfl (dropIfEmpty_lookup_subset _ _ t e h)

theorem workerStep_moves (sp : subPub μ) (w : Nat) (k : SelectCase) (c : Nat) :
    (sp.inflight c).toList ++ sp.chans c =
      ((workerStep sp w k).inflight c).toList ++ (workerStep sp w k).chans c := by
  unfold workerStep
  split
  · rfl
  · next wk _ =>
    split
    · rfl
    · next hfl =>
      cases k with
      | recv =>
        simp only
        split
        · rfl
        · next msg rest hq =>
          by_cases hc : c = wk.ch
          · subst hc
            simp [hfl, hq]
          · simp [Function.update_noteq hc]
      | done => simp only; split <;> rfl
      | closed => simp only; split <;> rfl

theorem workerCall_moves (sp : subPub μ) (w : Nat) (c : Nat) :
    sp.handled c ++ (sp.inflight c).toList =
      (workerCall sp w).handled c ++ ((workerCall sp w).inflight c).toList := by
  unfold workerCall
  split
  · rfl
  · next wk _ =>
    split
    · rfl
    · next msg hfl =>
      by_cases hc : c = wk.ch
      · subst hc
        simp [hfl]
      · simp [Function.update_noteq hc]

theorem step_gone (sp : subPub μ) (c : Nat) (hg : Gone c sp) (a : Action μ) :
    Gone c (step sp a) := by
  cases a with
  | subscribe subject cb =>
    simp only [step]
    cases hc : sp.closed with
    | true =>
      have : Subscribe sp subject cb = (sp, none, some Error.ErrClosed) := by
        simp [Subscribe, hc]
      rw [this]
      exact hg
    | false =>
      rw [Subscribe_of_open sp subject cb hc]
      have hne : c ≠ sp.nextCh := Nat.ne_of_lt hg.1
      refine ⟨Nat.lt_succ_of_lt hg.1, ?_⟩
      intro t e he
      by_cases hts : t = subject
      · subst hts
        simp only [subPub.lookup, Function.update_same, Option.getD_some] at he
        rcases List.mem_append.1 he with he | he
        · exact hg.2 t e he
        · simp only [List.mem_singleton] at he
          subst he
          exact fun h => hne h.symm
      · simp only [subPub.lookup, Function.update_noteq hts] at he
        exact hg.2 t e he
  | publish subject msg =>
    simp only [step]
    cases hc : sp.closed with
    | true =>
      have : Publish sp subject msg = (sp, some Error.ErrClosed) := by simp [Publish, hc]
      rw [this]
      exact hg
    | false =>
      rw [Publish_of_open sp subject msg hc]
      exact ⟨hg.1, hg.2⟩
  | unsubscribe s =>
    simp only [step]
    split
    · obtain ⟨-, -, h3, -⟩ := Unsubscribe_fields sp s
      refine ⟨by rw [h3]; exact hg.1, ?_⟩
      intro t e he
      exact hg.2 t e (Unsubscribe_lookup_subset sp s t e he)
    · exact hg
  | close ctx =>
    simp only [step, Close]
    split
    · exact hg
    · exact ⟨hg.1, hg.2⟩
  | work w k =>
    simp only [step]
    obtain ⟨h1, h2, -⟩ := workerStep_fields sp w k
    refine ⟨by rw [h2]; exact hg.1, ?_⟩
    intro t e he
    apply hg.2 t e
    simpa [subPub.lookup, h1] using he
  | call w =>
    simp only [step]
    obtain ⟨h1, h2, -⟩ := workerCall_fields sp w
    refine ⟨by rw [h2]; exact hg.1, ?_⟩
    intro t e he
    apply hg.2 t e
    simpa [subPub.lookup, h1] using he

theorem run_gone (c : Nat) (t : List (Action μ)) :
    ∀ sp : subPub μ, Gone c sp → Gone c (run sp t) := by
  induction t with
  | nil => intro sp hg; exact hg
  | cons a rest ih => intro sp hg; exact ih (step sp a) (step_gone sp c hg a)

theorem Unsubscribe_gone (sp : subPub μ) (hI : Inv sp) (s : subscription)
    (hs : s ∈ sp.handles) : Gone s.ch (Unsubscribe sp s).1 := by
  have hother : ∀ t, t ≠ s.subject → ∀ e ∈ sp.lookup t, e.ch ≠ s.ch := by
    intro t ht e he hec
    obtain ⟨l, hl, hel⟩ := mem_lookup sp t e he
    exact ht (hI.entry_of_handle hs hl hel hec).1
  by_cases hab : ∀ x ∈ sp.lookup s.subject, x.ch ≠ s.ch
  · rw [Unsubscribe_absent sp hI s hab]
    refine ⟨(hI.ids s hs).1, ?_⟩
    intro t e he
    by_cases hts : t = s.subject
    · subst hts; exact hab e he
    · exact hother t hts e he
  · obtain ⟨pre, x, post, hl, hx, -⟩ := mem_split_of_ch s.ch _ hab
    rw [Unsubscribe_present sp hI s hs pre post x hl hx]
    refine ⟨(hI.ids s hs).1, ?_⟩
    intro t e he
    by_cases hts : t = s.subject
    · subst hts
      have hnd := hI.lookup_nodup s.subject
      rw [hl] at hnd
      simp only [List.map_append, List.map_cons] at hnd
      have h1 := List.nodup_append.1 hnd
      have hmem : e ∈ pre ++ post := by
        by_cases hnil : pre ++ post = []
        · simp [subPub.lookup, hnil] at he
        · simpa [subPub.lookup, hnil] using he
      intro hec
      rcases List.mem_append.1 hmem with hm | hm
      · exact h1.2.2 (List.mem_map_of_mem subscriber.ch hm)
          (by rw [hec, ← hx]; exact List.mem_cons_self _ _)
      · exact (List.nodup_cons.1 h1.2.1).1
          (by rw [hx, ← hec]; exact List.mem_map_of_mem subscriber.ch hm)
    · simp only [subPub.lookup, Function.update_noteq hts] at he
      exact hother t hts e he

theorem step_steady (sp : subPub μ) (hI : Inv sp) (s : String) (c : Nat)
    (hreg : ∃ e ∈ sp.lookup s, e.ch = c) (a : Action μ) (hok : NoOverflow s c sp a) :
    (step sp a).handled c ++ ((step sp a).inflight c).toList ++ (step sp a).chans c =
      sp.handled c ++ (sp.inflight c).toList ++ sp.chans c ++ published s [a] := by
  obtain ⟨e, he, rfl⟩ := hreg
  obtain ⟨l, hl, hel⟩ := mem_lookup sp s e he
  have hk := ((hI.reg s l hl).2.2 e hel).1
  cases a with
  | subscribe subject cb =>
    simp only [step, published, List.append_nil]
    cases hc : sp.closed with
    | true => simp [Subscribe, hc]
    | false =>
      rw [Subscribe_of_open sp subject cb hc]
      have hne : e.ch ≠ sp.nextCh := Nat.ne_of_lt (hI.ids _ hk).1
      simp [Function.update_noteq hne]
  | publish subject msg =>
    simp only [step, published]
    by_cases hss : subject = s
    · subst hss
      obtain ⟨ho, hlen⟩ := hok rfl
      rw [Publish_of_open sp subject msg ho]
      simp only [if_true]
      rw [foldl_send_of_mem msg _ _ (hI.lookup_nodup subject) e he]
      simp [offer, hlen, List.append_assoc]
    · simp only [hss, if_false, List.append_nil]
      cases hc : sp.closed with
      | true => simp [Publish, hc]
      | false =>
        rw [Publish_of_open sp subject msg hc]
        simp only
        rw [foldl_send_of_not_mem msg _ e.ch _ _]
        intro x hx hxe
        obtain ⟨l2, hl2, hxl⟩ := mem_lookup sp subject x hx
        exact hss (hI.entry_of_handle hk hl2 hxl hxe).1
  | unsubscribe h =>
    simp only [step, published, List.append_nil]
    split
    · obtain ⟨h1, h2, -, h4, -⟩ := Unsubscribe_fields sp h
      rw [h1, h2, h4]
    · rfl
  | close ctx =>
    simp only [step, published, List.append_nil, Close]
    split <;> rfl
  | work w k =>
    simp only [step, published, List.append_nil]
    rw [(workerStep_fields sp w k).2.2.2.2.2, List.append_assoc, List.append_assoc,
      workerStep_moves sp w k e.ch]
  | call w =>
    simp only [step, published, List.append_nil]
    rw [(workerCall_fields sp w).2.2.2.2.2.1, workerCall_moves sp w e.ch]

theorem published_cons (s : String) (a : Action μ) (t : List (Action μ)) :
    published s (a :: t) = published s [a] ++ published s t := by
  cases a with
  | publish subject msg =>
    by_cases hss : subject = s <;> simp [published, hss]
  | subscribe _ _ => simp [published]
  | unsubscribe _ => simp [published]
  | close _ => simp [published]
  | work _ _ => simp [published]
  | call _ => simp [published]

theorem run_steady (s : String) (c : Nat) (t : List (Action μ)) :
    ∀ sp : subPub μ, Inv sp → Steady s c sp t →
      (run sp t).handled c ++ ((run sp t).inflight c).toList ++ (run sp t).chans c =
        sp.handled c ++ (sp.inflight c).toList ++ sp.chans c ++ published s t := by
  induction t with
  | nil => intro sp _ _; simp [run, published]
  | cons a rest ih =>
    intro sp hI hst
    obtain ⟨hreg, hok, hrest⟩ := hst
    show (run (step sp a) rest).handled c ++ ((run (step sp a) rest).inflight c).toList ++
      (run (step sp a) rest).chans c = _
    rw [ih (step sp a) (inv_step sp hI a) hrest, step_steady sp hI s c hreg a hok,
      published_cons s a rest]
    simp only [List.append_assoc]

/-! ## Executions: cancellation, order, the registry -/

/-- C4: the code breaks the claim.  A subscriber under `"s"`, `Publish "s" "m"`,
then the subscriber's `Unsubscribe` returns (no panic, the entry is gone, the
handler has not been called); the worker then reaches its `select` with both
`ch` and `doneCh` ready, takes the receive branch and calls the handler with
`"m"`.  The same late call happens when the worker received `"m"` just before
`Unsubscribe` ran and calls the handler after it returned. -/
theorem handler_called_after_Unsubscribe :
    (Subscribe (NewSubPub : subPub String) "s" (fun _ => ())).2.1 = some ⟨"s", 0, 0⟩ ∧
    (Unsubscribe (run (NewSubPub : subPub String)
      [Action.subscribe "s" (fun _ => ()), Action.publish "s" "m"]) ⟨"s", 0, 0⟩).2 = false ∧
    (run (NewSubPub : subPub String)
      [Action.subscribe "s" (fun _ => ()), Action.publish "s" "m",
       Action.unsubscribe ⟨"s", 0, 0⟩]).subscribers "s" = none ∧
    (run (NewSubPub : subPub String)
      [Action.subscribe "s" (fun _ => ()), Action.publish "s" "m",
       Action.unsubscribe ⟨"s", 0, 0⟩]).doneChs 0 = true ∧
    (run (NewSubPub : subPub String)
      [Action.subscribe "s" (fun _ => ()), Action.publish "s" "m",
       Action.unsubscribe ⟨"s", 0, 0⟩]).handled 0 = [] ∧
    (run (NewSubPub : subPub String)
      [Action.subscribe "s" (fun _ => ()), Action.publish "s" "m",
       Action.unsubscribe ⟨"s", 0, 0⟩, Action.work 0 SelectCase.recv,
       Action.call 0]).handled 0 = ["m"] ∧
    (run (NewSubPub : subPub String)
      [Action.subscribe "s" (fun _ => ()), Action.publish "s" "m",
       Action.work 0 SelectCase.recv, Action.unsubscribe ⟨"s", 0, 0⟩]).handled 0 = [] ∧
    (run (NewSubPub : subPub String)
      [Action.subscribe "s" (fun _ => ()), Action.publish "s" "m",
       Action.work 0 SelectCase.recv, Action.unsubscribe ⟨"s", 0, 0⟩,
       Action.call 0]).handled 0 = ["m"] := by
  decide

/-- C5: from any state the bus can be in, along any sequence of actions (calls
of `Publish`, worker steps, and any other calls) during which an entry with
queue `c` stays registered under `s` and every `Publish` to `s` finds the bus
open and `c` below capacity: the messages handed to the handler of `c` (those
it was called with, then the one the worker has received and is passing to it,
if any) followed by the messages waiting in `c` are what they were at the start
followed by exactly the messages published to `s`, in publish order.  When the
worker holds no message at the start and at the end, this reads: the messages
the handler was called with followed by the messages waiting in `c`. -/
theorem publish_order_preserved (sp : subPub μ) (hr : Reachable sp) (s : String) (c : Nat)
    (t : List (Action μ)) (hst : Steady s c sp t) :
    ((run sp t).handled c ++ ((run sp t).inflight c).toList ++ (run sp t).chans c =
      sp.handled c ++ (sp.inflight c).toList ++ sp.chans c ++ published s t) ∧
    (sp.inflight c = none → (run sp t).inflight c = none →
      (run sp t).handled c ++ (run sp t).chans c =
        sp.handled c ++ sp.chans c ++ published s t) := by
  have h := run_steady s c t sp (inv_of_reachable sp hr) hst
  refine ⟨h, ?_⟩
  intro h0 h1
  simpa [h0, h1] using h

/-- C5, at a concrete execution: a fresh subscriber under `"s"`, then
`Publish "s" "m1"`, the worker receives it and calls the handler,
`Publish "s" "m2"`. -/
theorem publish_order_preserved_witness :
    Reachable (run (NewSubPub : subPub String) [Action.subscribe "s" (fun _ => ())]) ∧
    Steady "s" 0 (run (NewSubPub : subPub String) [Action.subscribe "s" (fun _ => ())])
      [Action.publish "s" "m1", Action.work 0 SelectCase.recv, Action.call 0,
       Action.publish "s" "m2"] ∧
    (run (run (NewSubPub : subPub String) [Action.subscribe "s" (fun _ => ())])
      [Action.publish "s" "m1", Action.work 0 SelectCase.recv, Action.call 0,
       Action.publish "s" "m2"]).handled 0 ++
    (run (run (NewSubPub : subPub String) [Action.subscribe "s" (fun _ => ())])
      [Action.publish "s" "m1", Action.work 0 SelectCase.recv, Action.call 0,
       Action.publish "s" "m2"]).chans 0 = ["m1", "m2"] :=
  ⟨⟨_, rfl⟩,
    ⟨⟨⟨0, 0⟩, by decide, rfl⟩, fun _ => ⟨rfl, by decide⟩,
      ⟨⟨0, 0⟩, by decide, rfl⟩, trivial,
      ⟨⟨0, 0⟩, by decide, rfl⟩, trivial,
      ⟨⟨0, 0⟩, by decide, rfl⟩, fun _ => ⟨rfl, by decide⟩, trivial⟩,
    ((publish_order_preserved (run (NewSubPub : subPub String) [Action.subscribe "s" (fun _ => ())])
      ⟨_, rfl⟩ "s" 0
      [Action.publish "s" "m1", Action.work 0 SelectCase.recv, Action.call 0,
       Action.publish "s" "m2"]
      ⟨⟨⟨0, 0⟩, by decide, rfl⟩, fun _ => ⟨rfl, by decide⟩,
        ⟨⟨0, 0⟩, by decide, rfl⟩, trivial,
        ⟨⟨0, 0⟩, by decide, rfl⟩, trivial,
        ⟨⟨0, 0⟩, by decide, rfl⟩, fun _ => ⟨rfl, by decide⟩, trivial⟩).2 rfl rfl).trans
      (by decide)⟩

/-- C9: in any state the bus can be in, after `h.Unsubscribe()` has removed the
entry of `h`, and after whatever happens next, calling `h.Unsubscribe()` again
does not panic (`close(s.doneCh)` is not reached) and leaves the whole state,
the registry included, exactly as it was before that call. -/
theorem Unsubscribe_again_is_noop (sp : subPub μ) (hr : Reachable sp) (h : subscription)
    (hh : h ∈ sp.handles) (t : List (Action μ)) :
    Unsubscribe (run (Unsubscribe sp h).1 t) h = (run (Unsubscribe sp h).1 t, false) := by
  have hI := inv_of_reachable sp hr
  have hI2 := inv_run t _ (inv_Unsubscribe sp hI h hh)
  have hg := run_gone h.ch t _ (Unsubscribe_gone sp hI h hh)
  exact Unsubscribe_absent _ hI2 h (hg.2 h.subject)

/-- C9, at a concrete state: two subscribers under `"s"`, the first one cancels
twice. -/
theorem Unsubscribe_again_is_noop_witness :
    Reachable (run (NewSubPub : subPub String)
      [Action.subscribe "s" (fun _ => ()), Action.subscribe "s" (fun _ => ())]) ∧
    (⟨"s", 0, 0⟩ : subscription) ∈ (run (NewSubPub : subPub String)
      [Action.subscribe "s" (fun _ => ()), Action.subscribe "s" (fun _ => ())]).handles ∧
    (Unsubscribe (Unsubscribe (run (NewSubPub : subPub String)
      [Action.subscribe "s" (fun _ => ()), Action.subscribe "s" (fun _ => ())])
        ⟨"s", 0, 0⟩).1 ⟨"s", 0, 0⟩).2 = false :=
  ⟨⟨_, rfl⟩, by decide,
    congrArg Prod.snd (Unsubscribe_again_is_noop (run (NewSubPub : subPub String)
      [Action.subscribe "s" (fun _ => ()), Action.subscribe "s" (fun _ => ())])
      ⟨_, rfl⟩ ⟨"s", 0, 0⟩ (by decide) [])⟩

/-- C10: in every state reached from `NewSubPub` by any sequence of
`Subscribe`, `Publish`, `Unsubscribe`, `Close` (and worker steps), every subject
present in the registry maps to a non-empty sequence; and when the entry of a
handle is the only one of its subject, `Unsubscribe` deletes the subject. -/
theorem registry_has_no_empty_sequence (sp : subPub μ) (hr : Reachable sp) :
    (∀ s l, sp.subscribers s = some l → l ≠ []) ∧
    (∀ h ∈ sp.handles, ∀ e, sp.lookup h.subject = [e] → e.ch = h.ch →
      (Unsubscribe sp h).1.subscribers h.subject = none) := by
  have hI := inv_of_reachable sp hr
  refine ⟨fun s l hl => (hI.reg s l hl).1, ?_⟩
  intro h hh e hl he
  rw [Unsubscribe_present sp hI h hh [] [] e (by simpa using hl) he]
  simp

/-- C10, at a concrete state: after one `Subscribe` to `"a"`. -/
theorem registry_has_no_empty_sequence_witness :
    Reachable (run (NewSubPub : subPub String) [Action.subscribe "a" (fun _ => ())]) ∧
    (Unsubscribe (run (NewSubPub : subPub String) [Action.subscribe "a" (fun _ => ())])
      ⟨"a", 0, 0⟩).1.subscribers "a" = none :=
  ⟨⟨_, rfl⟩,
    (registry_has_no_empty_sequence
      (run (NewSubPub : subPub String) [Action.subscribe "a" (fun _ => ())]) ⟨_, rfl⟩).2
      ⟨"a", 0, 0⟩ (by decide) ⟨0, 0⟩ (by decide) rfl⟩

/-! ## `Close` and the registry -/

theorem run_worker_subscribers (t : List (Action μ)) :
    ∀ sp : subPub μ, (∀ a ∈ t, a.isWorker = true) →
      (run sp t).subscribers = sp.subscribers := by
  induction t with
  | nil => intro sp _; rfl
  | cons a rest ih =>
    intro sp hw
    show (run (step sp a) rest).subscribers = _
    rw [ih (step sp a) (fun b hb => hw b (List.mem_cons_of_mem _ hb))]
    have ha := hw a (List.mem_cons_self _ _)
    cases a with
    | work w k => exact (workerStep_fields sp w k).1
    | call w => exact (workerCall_fields sp w).1
    | subscribe _ _ => simp [Action.isWorker] at ha
    | publish _ _ => simp [Action.isWorker] at ha
    | unsubscribe _ => simp [Action.isWorker] at ha
    | close _ => simp [Action.isWorker] at ha

/-- C11, as stated, fails: one subscriber under `"s"` on an open bus, then
`Close` runs and its worker leaves through the `closeCh` branch; the entry
registered before the call is still in the registry. -/
theorem Close_keeps_entry :
    (run (NewSubPub : subPub String) [Action.subscribe "s" (fun _ => ())]).closed = false ∧
    (run (NewSubPub : subPub String) [Action.subscribe "s" (fun _ => ())]).subscribers "s" =
      some [⟨0, 0⟩] ∧
    (Close (run (NewSubPub : subPub String) [Action.subscribe "s" (fun _ => ())])
      ⟨none⟩).1.subscribers "s" = some [⟨0, 0⟩] ∧
    (run (NewSubPub : subPub String)
      [Action.subscribe "s" (fun _ => ()), Action.close ⟨none⟩,
       Action.work 0 SelectCase.closed]).subscribers "s" = some [⟨0, 0⟩] ∧
    (run (NewSubPub : subPub String)
      [Action.subscribe "s" (fun _ => ()), Action.close ⟨none⟩,
       Action.work 0 SelectCase.closed]).wg = 0 := by
  decide

/-- C11, amended: on an open bus, for any context, `Close` sets the closed
flag, raises the shared termination signal and goes on to wait for the workers;
it leaves the registry, every queue and every entry's own termination signal
exactly as they were, and the registry stays so through the worker steps that
`Close` waits for.  So after `Close` has run the registry still holds every
entry that was registered before the call. -/
theorem Close_leaves_registry (sp : subPub μ) (ctx : Context) (ho : sp.closed = false)
    (t : List (Action μ)) (hw : ∀ a ∈ t, a.isWorker = true) :
    (Close sp ctx).2 = CloseOutcome.waiting ∧
    (Close sp ctx).1.closed = true ∧
    (Close sp ctx).1.closeCh = true ∧
    (Close sp ctx).1.subscribers = sp.subscribers ∧
    (Close sp ctx).1.chans = sp.chans ∧
    (Close sp ctx).1.doneChs = sp.doneChs ∧
    (run (Close sp ctx).1 t).subscribers = sp.subscribers ∧
    (∀ s, ∀ e ∈ sp.lookup s, e ∈ (run (Close sp ctx).1 t).lookup s) := by
  have hc : Close sp ctx = ({ sp with closed := true, closeCh := true }, CloseOutcome.waiting) := by
    simp [Close, ho]
  have hrun := run_worker_subscribers t (Close sp ctx).1 hw
  refine ⟨by rw [hc], by rw [hc], by rw [hc], by rw [hc], by rw [hc], by rw [hc], ?_, ?_⟩
  · rw [hrun, hc]
  · intro s e he
    unfold subPub.lookup
    rw [hrun, hc]
    exact he

/-- C11 amended, at a concrete state: one subscriber under `"s"`, `Close`, then
the worker leaves. -/
theorem Close_leaves_registry_witness :
    (run (NewSubPub : subPub String) [Action.subscribe "s" (fun _ => ())]).closed = false ∧
    (∀ a ∈ [(Action.work 0 SelectCase.closed : Action String)], a.isWorker = true) ∧
    (run (Close (run (NewSubPub : subPub String) [Action.subscribe "s" (fun _ => ())])
        ⟨some Error.DeadlineExceeded⟩).1
      [Action.work 0 SelectCase.closed]).subscribers =
      (run (NewSubPub : subPub String) [Action.subscribe "s" (fun _ => ())]).subscribers :=
  ⟨rfl, by simp [Action.isWorker],
    (Close_leaves_registry (run (NewSubPub : subPub String) [Action.subscribe "s" (fun _ => ())])
      ⟨some Error.DeadlineExceeded⟩ rfl [Action.work 0 SelectCase.closed]
      (by simp [Action.isWorker])).2.2.2.2.2.2.1⟩

/-! ## The workers and the end of `Close` -/

theorem filter_ch_length (w : Nat) :
    ∀ l : List (worker μ), (l.map worker.ch).Nodup → (∃ k ∈ l, k.ch = w) →
      (l.filter (fun k => k.ch != w)).length + 1 = l.length := by
  intro l
  induction l with
  | nil => intro _ h; obtain ⟨k, hk, _⟩ := h; cases hk
  | cons x rest ih =>
    intro hn h
    simp only [List.map_cons, List.nodup_cons, List.mem_map, not_exists, not_and] at hn
    by_cases hx : x.ch = w
    · have hall : ∀ y ∈ rest, (y.ch != w) = true := by
        intro y hy
        simp only [bne_iff_ne, ne_eq]
        intro hyw
        exact hn.1 y hy (hyw.trans hx.symm)
      simp [List.filter_cons, hx, List.filter_eq_self.2 hall]
    · obtain ⟨k, hk, hkw⟩ := h
      have hkr : k ∈ rest := by
        rcases List.mem_cons.1 hk with rfl | hkr
        · exact absurd hkw hx
        · exact hkr
      have := ih hn.2 ⟨k, hkr, hkw⟩
      simp [List.filter_cons, hx, this]

theorem winv_NewSubPub : WInv (NewSubPub : subPub μ) where
  count := rfl
  distinct := by simp [NewSubPub]
  created := by intro k hk; simp [NewSubPub] at hk
  busy := by intro c m h; simp [NewSubPub] at h

theorem winv_Subscribe (sp : subPub μ) (hW : WInv sp) (subject : String)
    (cb : MessageHandler μ) : WInv (Subscribe sp subject cb).1 := by
  cases hc : sp.closed with
  | true => simpa [Subscribe, hc] using hW
  | false =>
    rw [Subscribe_of_open sp subject cb hc]
    refine ⟨?_, ?_, ?_, ?_⟩
    · simp [hW.count]
    · simp only [List.map_append, List.map_cons, List.map_nil]
      refine List.nodup_append.2 ⟨hW.distinct, by simp, ?_⟩
      intro a ha hb
      simp only [List.mem_singleton] at hb
      obtain ⟨k, hk, rfl⟩ := List.mem_map.1 ha
      exact Nat.ne_of_lt (hW.created k hk) hb
    · intro k hk
      rcases List.mem_append.1 hk with hk | hk
      · exact Nat.lt_succ_of_lt (hW.created k hk)
      · simp only [List.mem_singleton] at hk
        subst hk
        exact Nat.lt_succ_self _
    · intro c m h
      by_cases hcn : c = sp.nextCh
      · subst hcn; simp at h
      · simp only [Function.update_noteq hcn] at h
        obtain ⟨k, hk, hkc⟩ := hW.busy c m h
        exact ⟨k, List.mem_append_left _ hk, hkc⟩

theorem winv_Publish (sp : subPub μ) (hW : WInv sp) (subject : String) (msg : μ) :
    WInv (Publish sp subject msg).1 := by
  unfold Publish
  split
  · exact hW
  · split
    · exact hW
    · exact ⟨hW.count, hW.distinct, hW.created, hW.busy⟩

theorem winv_Close (sp : subPub μ) (hW : WInv sp) (ctx : Context) : WInv (Close sp ctx).1 := by
  unfold Close
  split
  · exact hW
  · exact ⟨hW.count, hW.distinct, hW.created, hW.busy⟩

theorem winv_Unsubscribe (sp : subPub μ) (hW : WInv sp) (s : subscription) :
    WInv (Unsubscribe sp s).1 := by
  obtain ⟨-, -, h3, h4, h5, h6⟩ := Unsubscribe_fields sp s
  exact ⟨by rw [h6, h5]; exact hW.count, by rw [h5]; exact hW.distinct,
    by rw [h5, h3]; exact hW.created, by rw [h4, h5]; exact hW.busy⟩

theorem winv_workerExit (sp : subPub μ) (hW : WInv sp) (w : Nat) (k : worker μ)
    (hk : k ∈ sp.workers) (hkw : k.ch = w) (hfl : sp.inflight k.ch = none) :
    WInv (workerExit sp w) := by
  refine ⟨?_, ?_, ?_, ?_⟩
  · have := filter_ch_length w sp.workers hW.distinct ⟨k, hk, hkw⟩
    simp only [workerExit]
    rw [hW.count, ← this]
    rfl
  · exact hW.distinct.sublist ((List.filter_sublist _).map _)
  · intro x hx
    exact hW.created x (List.mem_of_mem_filter hx)
  · intro c m h0
    have h : sp.inflight c = some m := h0
    obtain ⟨x, hx, hxc⟩ := hW.busy c m h
    refine ⟨x, List.mem_filter.2 ⟨hx, ?_⟩, hxc⟩
    simp only [bne_iff_ne, ne_eq]
    intro hxw
    have hck : c = k.ch := by rw [← hxc, hxw, hkw]
    rw [hck, hfl] at h
    cases h

theorem winv_workerStep (sp : subPub μ) (hW : WInv sp) (w : Nat) (c : SelectCase) :
    WInv (workerStep sp w c) := by
  unfold workerStep
  split
  · exact hW
  · next k hfind =>
    have hk : k ∈ sp.workers := List.mem_of_find?_eq_some hfind
    have hkw : k.ch = w := by simpa using List.find?_some hfind
    split
    · exact hW
    · next hfl =>
      cases c with
      | recv =>
        simp only
        split
        · exact hW
        · refine ⟨hW.count, hW.distinct, hW.created, ?_⟩
          intro c m h
          by_cases hc : c = k.ch
          · exact ⟨k, hk, hc.symm⟩
          · simp only [Function.update_noteq hc] at h
            exact hW.busy c m h
      | done =>
        simp only
        split
        · exact winv_workerExit sp hW w k hk hkw hfl
        · exact hW
      | closed =>
        simp only
        split
        · exact winv_workerExit sp hW w k hk hkw hfl
        · exact hW

theorem winv_workerCall (sp : subPub μ) (hW : WInv sp) (w : Nat) : WInv (workerCall sp w) := by
  unfold workerCall
  split
  · exact hW
  · next k _ =>
    split
    · exact hW
    · refine ⟨hW.count, hW.distinct, hW.created, ?_⟩
      intro c m h
      by_cases hc : c = k.ch
      · subst hc; simp at h
      · simp only [Function.update_noteq hc] at h
        exact hW.busy c m h

theorem winv_step (sp : subPub μ) (hW : WInv sp) (a : Action μ) : WInv (step sp a) := by
  cases a with
  | subscribe subject cb => exact winv_Subscribe sp hW subject cb
  | publish subject msg => exact winv_Publish sp hW subject msg
  | unsubscribe s =>
    simp only [step]
    split
    · exact winv_Unsubscribe sp hW s
    · exact hW
  | close ctx => exact winv_Close sp hW ctx
  | work w c => exact winv_workerStep sp hW w c
  | call w => exact winv_workerCall sp hW w

theorem winv_run (t : List (Action μ)) : ∀ sp : subPub μ, WInv sp → WInv (run sp t) := by
  induction t with
  | nil => intro sp h; exact h
  | cons a rest ih => intro sp h; exact ih _ (winv_step sp h a)

theorem winv_of_reachable (sp : subPub μ) (h : Reachable sp) : WInv sp := by
  obtain ⟨t, rfl⟩ := h
  exact winv_run t _ winv_NewSubPub

/-- C8: the first `Close`, on an open bus in any state the bus can be in, goes
on to its final `select`.  Whatever happens while it waits, with `ctx'` the
context as it is when the `select` runs: if every worker has returned and the
deadline has not elapsed, the only branch that is ready returns nil; if the
deadline has elapsed while a worker still holds a message for its handler, the
only branch that is ready returns the deadline-exceeded error, so `Close`
returns it without waiting for that handler call. -/
theorem Close_first_call (sp : subPub μ) (hr : Reachable sp) (ho : sp.closed = false)
    (ctx ctx' : Context) (t : List (Action μ)) :
    (Close sp ctx).2 = CloseOutcome.waiting ∧
    ((run (Close sp ctx).1 t).workers = [] → ctx'.err = none →
      CloseWait (run (Close sp ctx).1 t) ctx' CloseCase.done = some none ∧
      CloseWait (run (Close sp ctx).1 t) ctx' CloseCase.ctxDone = none) ∧
    (∀ c m, (run (Close sp ctx).1 t).inflight c = some m →
      ctx'.err = some Error.DeadlineExceeded →
      CloseWait (run (Close sp ctx).1 t) ctx' CloseCase.ctxDone =
        some (some Error.DeadlineExceeded) ∧
      CloseWait (run (Close sp ctx).1 t) ctx' CloseCase.done = none) := by
  have hW : WInv (run (Close sp ctx).1 t) :=
    winv_run t _ (winv_Close sp (winv_of_reachable sp hr) ctx)
  refine ⟨by simp [Close, ho], ?_, ?_⟩
  · intro hw he
    have h0 : (run (Close sp ctx).1 t).wg = 0 := by rw [hW.count, hw]; rfl
    simp [CloseWait, h0, he]
  · intro c m hfl he
    obtain ⟨k, hk, -⟩ := hW.busy c m hfl
    have hpos : (run (Close sp ctx).1 t).wg ≠ 0 := by
      rw [hW.count]
      exact Nat.ne_of_gt (List.length_pos_of_mem hk)
    simp [CloseWait, hpos, he]

/-- C8, at a concrete state: the worker has received `"m"` and its handler call
is pending when `Close` is called; the deadline elapses. -/
theorem Close_first_call_witness :
    Reachable (run (NewSubPub : subPub String)
      [Action.subscribe "s" (fun _ => ()), Action.publish "s" "m",
       Action.work 0 SelectCase.recv]) ∧
    (run (NewSubPub : subPub String)
      [Action.subscribe "s" (fun _ => ()), Action.publish "s" "m",
       Action.work 0 SelectCase.recv]).closed = false ∧
    CloseWait (run (Close (run (NewSubPub : subPub String)
      [Action.subscribe "s" (fun _ => ()), Action.publish "s" "m",
       Action.work 0 SelectCase.recv]) ⟨none⟩).1 []) ⟨some Error.DeadlineExceeded⟩
      CloseCase.ctxDone = some (some Error.DeadlineExceeded) :=
  ⟨⟨_, rfl⟩, rfl,
    ((Close_first_call (run (NewSubPub : subPub String)
      [Action.subscribe "s" (fun _ => ()), Action.publish "s" "m",
       Action.work 0 SelectCase.recv]) ⟨_, rfl⟩ rfl ⟨none⟩ ⟨some Error.DeadlineExceeded⟩
      []).2.2 0 "m" (by decide) rfl).1⟩

end SubPub
